import Mathlib

/-
  Verification of the PLASMA tile-based dense linear-algebra runtime.

  The definitions below are a shallow embedding of the C sources:
  machine integers become Nat (all quantities involved are nonnegative and
  no arithmetic here can overflow in the sizes considered), flat C arrays
  become functions from flat indices to values, and the OpenMP task
  submissions of a routine become the list of the per-tile operations it
  emits, in submission order.  Element offsets are counted in elements,
  not bytes (the C scales every offset by one fixed eltsize, so
  disjointness and coverage of byte ranges and of element ranges agree).
-/

namespace Plasma

/-- The PLASMA enumeration constants used by the embedded routines
(one shared enumeration, mirroring the single C enum namespace). -/
inductive PlasmaEnum
  | general
  | upper
  | lower
  | left
  | right
  | noTrans
  | transp
  | conjTrans
  | unitDiag
  | nonUnitDiag
  deriving DecidableEq, Repr

/-- The matrix-storage type of a descriptor.  The C stores an enum and
calls a fatal error on any value other than these two; the exhaustive
inductive makes that branch unreachable. -/
inductive DescType
  | general
  | generalBand
  deriving DecidableEq, Repr

/-- Tile matrix descriptor (plasma_descriptor.h).  Fields are the
matrix-property, tile-parameter, main-matrix, submatrix and band fields
of plasma_desc_t; the zone offsets A21/A12/A22 are derived functions
below rather than stored fields. -/
structure PlasmaDesc where
  typ : DescType
  uplo : PlasmaEnum
  mb : Nat
  nb : Nat
  lm : Nat
  ln : Nat
  i : Nat
  j : Nat
  m : Nat
  n : Nat
  kl : Nat
  ku : Nat
  deriving DecidableEq, Repr

/-- Number of tile rows of the entire matrix: lmt = ceil(lm/mb). -/
def lmt (A : PlasmaDesc) : Nat := (A.lm + A.mb - 1) / A.mb

/-- Number of tile columns of the entire matrix: lnt = ceil(ln/nb). -/
def lnt (A : PlasmaDesc) : Nat := (A.ln + A.nb - 1) / A.nb

/-- Number of tile rows of the submatrix: mt = ceil((i mod mb + m)/mb). -/
def mt (A : PlasmaDesc) : Nat := (A.i % A.mb + A.m + A.mb - 1) / A.mb

/-- Number of tile columns of the submatrix: nt = ceil((j mod nb + n)/nb). -/
def nt (A : PlasmaDesc) : Nat := (A.j % A.nb + A.n + A.nb - 1) / A.nb

/-- Modelled from the spec: zone offset A21 of the backing store
(plasma_desc_general_init is not among the sources).  The four storage
zones lie contiguously in the order A11, A21, A12, A22; the interior
zone A11 holds the lm/mb by ln/nb full tiles, so A21 starts after
(lm - lm mod mb) * (ln - ln mod nb) elements. -/
def descA21 (A : PlasmaDesc) : Nat :=
  (A.lm - A.lm % A.mb) * (A.ln - A.ln % A.nb)

/-- Modelled from the spec: zone offset A12; the bottom-edge zone A21
holds lm mod mb by nb tiles, one per full tile column. -/
def descA12 (A : PlasmaDesc) : Nat :=
  descA21 A + (A.lm % A.mb) * (A.ln - A.ln % A.nb)

/-- Modelled from the spec: zone offset A22; the right-edge zone A12
holds mb by ln mod nb tiles, one per full tile row. -/
def descA22 (A : PlasmaDesc) : Nat :=
  descA12 A + (A.lm - A.lm % A.mb) * (A.ln % A.nb)

/-- Element offset of the tile with absolute grid position (mm, nn); this
is the body of plasma_tile_addr_general after the submatrix origin shift
mm = m + i/mb, nn = n + j/nb has been applied. -/
def gridOff (A : PlasmaDesc) (mm nn : Nat) : Nat :=
  if mm < A.lm / A.mb then
    if nn < A.ln / A.nb then
      A.mb * A.nb * (mm + (A.lm / A.mb) * nn)
    else
      descA12 A + A.mb * (A.ln % A.nb) * mm
  else
    if nn < A.ln / A.nb then
      descA21 A + A.nb * (A.lm % A.mb) * nn
    else
      descA22 A

/-- plasma_tile_addr_general: element offset of submatrix tile (m, n);
the source first shifts by the origin offset (i/mb, j/nb) and then
selects the zone. -/
def plasma_tile_addr_general (A : PlasmaDesc) (m n : Nat) : Nat :=
  gridOff A (m + A.i / A.mb) (n + A.j / A.nb)

/-- Storage height of the absolute tile row t. -/
def tileH (A : PlasmaDesc) (t : Nat) : Nat :=
  if t < A.lm / A.mb then A.mb else A.lm % A.mb

/-- Storage width of the absolute tile column t. -/
def tileW (A : PlasmaDesc) (t : Nat) : Nat :=
  if t < A.ln / A.nb then A.nb else A.ln % A.nb

/-- plasma_tile_mmain: height of the tile with vertical position k. -/
def plasma_tile_mmain (A : PlasmaDesc) (k : Nat) : Nat :=
  if A.i / A.mb + k < A.lm / A.mb then A.mb else A.lm % A.mb

/-- plasma_tile_nmain: width of the tile with horizontal position k. -/
def plasma_tile_nmain (A : PlasmaDesc) (k : Nat) : Nat :=
  if A.j / A.nb + k < A.ln / A.nb then A.nb else A.ln % A.nb

/-- plasma_tile_mview: the source's height of the portion of the
submatrix occupying the tile at vertical position k. -/
def plasma_tile_mview (A : PlasmaDesc) (k : Nat) : Nat :=
  if A.i / A.mb + k < A.m / A.mb then A.mb else A.m % A.mb

/-- plasma_tile_nview: the source's width of the portion of the
submatrix occupying the tile at horizontal position k. -/
def plasma_tile_nview (A : PlasmaDesc) (k : Nat) : Nat :=
  if A.j / A.nb + k < A.n / A.nb then A.nb else A.n % A.nb

/-- BLKLDD_BAND: leading dimension of band tile (m, n) for the given
uplo.  The C computes kut + m - n in a signed int; the band loops only
produce indices with kut + m >= n, where the Nat truncated subtraction
agrees with the C. -/
def BLKLDD_BAND (uplo : PlasmaEnum) (A : PlasmaDesc) (m n : Nat) : Nat :=
  let kut :=
    if uplo = PlasmaEnum.general then (A.kl + A.kl + A.nb - 1) / A.nb
    else if uplo = PlasmaEnum.upper then (A.ku + A.nb - 1) / A.nb
    else 0
  plasma_tile_mmain A (kut + m - n)

/-- Descriptor validity (the invariants of spec section 3.1, used as the
model of plasma_desc_general_check, whose C body is not among the
sources): positive tile dimensions and a submatrix contained in the
matrix. -/
abbrev Valid (A : PlasmaDesc) : Prop :=
  0 < A.mb ∧ 0 < A.nb ∧ A.i + A.m ≤ A.lm ∧ A.j + A.n ≤ A.ln

/-- Modelled from the spec: a spec-side count of the rows of the
submatrix [i, i+m) that lie in tile row k, that is, the logical extent
of the submatrix intersected with absolute tile row i/mb + k
(spec section 3.1, main vs view dimensions). -/
def viewRowsInTile (A : PlasmaDesc) (k : Nat) : Nat :=
  min (A.i + A.m) ((A.i / A.mb + k + 1) * A.mb) - max A.i ((A.i / A.mb + k) * A.mb)

/-- Pointwise update of a flat memory, the effect of one element store. -/
def upd {α : Type} (f : Nat → α) (k : Nat) (v : α) : Nat → α :=
  fun x => if x = k then v else f x

/-- The (destination offset, source index) element pairs traversed by the
tile loop of plasma_pdge2desc, in submission order: tiles row-major
(m outer, n inner), and inside a tile the lacpy copy of the
(y2-y1) by (x2-x1) block, columns outer.  For tile (tm, tn) the copied
block starts at column x1 and row y1, the destination is the tile at
plasma_tile_addr with base offset x1*nb + y1 and leading dimension
ldt = plasma_tile_mmain(tm), the source is pA at base
nb*lda*tn + mb*tm with offset x1*lda + y1 and leading dimension lda. -/
def transList (A : PlasmaDesc) (lda : Nat) : List (Nat × Nat) :=
  (List.range (mt A)).flatMap fun tm =>
    (List.range (nt A)).flatMap fun tn =>
      let ldt := plasma_tile_mmain A tm
      let x1 := if tn = 0 then A.j % A.nb else 0
      let y1 := if tm = 0 then A.i % A.mb else 0
      let x2 := if tn = nt A - 1 then (A.j + A.n - 1) % A.nb + 1 else A.nb
      let y2 := if tm = mt A - 1 then (A.i + A.m - 1) % A.mb + 1 else A.mb
      let off := plasma_tile_addr_general A tm tn
      let base := A.nb * lda * tn + A.mb * tm
      (List.range (x2 - x1)).flatMap fun c =>
        (List.range (y2 - y1)).map fun r =>
          (off + (x1 * A.nb + y1) + (c * ldt + r),
           base + (x1 * lda + y1) + (c * lda + r))

/-- plasma_pdge2desc: translate column-major pA (leading dimension lda)
into the tiled backing store of descriptor A, by executing the element
copies of the emitted lacpy tasks in submission order.  Returns
immediately when the sequence has failed. -/
def plasma_pdge2desc {α : Type} (status : Int) (pA : Nat → α) (lda : Nat)
    (A : PlasmaDesc) (buf : Nat → α) : Nat → α :=
  if status ≠ 0 then buf
  else (transList A lda).foldl (fun b p => upd b p.1 (pA p.2)) buf

/-- Modelled from the spec: plasma_pddesc2ge, the inverse direction of
the layout translation (spec section 4.4: ccrb2cm copies each tile
subblock back to column-major over the same edge ranges).  Its C source
is not among the sources; it mirrors plasma_pdge2desc with the copy
direction reversed, traversing the same ranges. -/
def plasma_pddesc2ge {α : Type} (status : Int) (A : PlasmaDesc)
    (buf : Nat → α) (pA : Nat → α) (lda : Nat) : Nat → α :=
  if status ≠ 0 then pA
  else (transList A lda).foldl (fun q p => upd q p.2 (buf p.1)) pA

/-- The concrete descriptor exhibiting the round-trip defect: square
2 by 2 tiles, whole matrix 3 by 4 with a short last tile row, submatrix
of shape 3 by 3 at fractional column origin j = 1. -/
def descRT : PlasmaDesc :=
  { typ := DescType.general, uplo := PlasmaEnum.general
    mb := 2, nb := 2, lm := 3, ln := 4, i := 0, j := 1, m := 3, n := 3
    kl := 0, ku := 0 }

/-- C1: the layout round trip is NOT the identity on every valid general
descriptor.  On descRT (valid, fractional column origin j mod nb = 1,
short last tile row lm mod mb = 1) the forward translation writes the
submatrix elements at rows 2, columns 1 and 2 — source indices 5 and 8
of pA — to the same backing-store offset 10, because the copy base uses
x1*nb where the tile leading dimension is ldt = 1; the read-back
therefore returns pA 8 in place of pA 5, and the round trip loses the
element.  The claimed identity fails at submatrix element (2, 0). -/
theorem pdge2desc_roundtrip_not_id :
    Valid descRT ∧
    (10, 5) ∈ transList descRT 3 ∧
    (10, 8) ∈ transList descRT 3 ∧
    plasma_pddesc2ge 0 descRT
        (plasma_pdge2desc 0 (fun k => (k : Int)) 3 descRT (fun _ => 0))
        (fun k => (k : Int)) 3 5 = 8 ∧
    ((8 : Int) ≠ 5) := by
  refine ⟨⟨by decide, by decide, by decide, by decide⟩, by decide, by decide, by decide, by decide⟩

/-- The concrete descriptor exhibiting the tile_mview defect: an aligned
proper view with i = mb = 2 on a 6 by 2 matrix, submatrix of 3 rows. -/
def descMV : PlasmaDesc :=
  { typ := DescType.general, uplo := PlasmaEnum.general
    mb := 2, nb := 2, lm := 6, ln := 2, i := 2, j := 0, m := 3, n := 2
    kl := 0, ku := 0 }

/-- C7: plasma_tile_mmain is the storage height as claimed, but
plasma_tile_mview does not return the number of submatrix rows lying in
tile row k for proper views.  On descMV (valid view with i = 2, mb = 2,
m = 3), tile row k = 0 is the absolute tile row 1 covering matrix rows
2 and 3, both inside the submatrix [2, 5) — 2 rows — yet the source
returns m mod mb = 1 because it compares i/mb + k with m/mb.  The
storage height plasma_tile_mmain is 2 as claimed. -/
theorem tile_mview_not_view_rows :
    Valid descMV ∧
    plasma_tile_mview descMV 0 = 1 ∧
    viewRowsInTile descMV 0 = 2 ∧
    plasma_tile_mmain descMV 0 = 2 := by
  refine ⟨⟨by decide, by decide, by decide, by decide⟩, by decide, by decide, by decide⟩

/-! ## Tile addressing: disjointness and coverage of the backing store -/

/-- The element range of the tile stored at absolute grid position
(mm, nn): its offset together with its storage extent. -/
def region (A : PlasmaDesc) (mm nn : Nat) : Finset Nat :=
  Finset.Ico (gridOff A mm nn) (gridOff A mm nn + tileH A mm * tileW A nn)

theorem ceil_div_eq (a b : Nat) (hb : 0 < b) :
    (a + b - 1) / b = a / b + if a % b = 0 then 0 else 1 := by
  have hmod := Nat.mod_add_div a b
  have hlt : a % b < b := Nat.mod_lt _ hb
  have h1 : a + b - 1 = (a % b + b - 1) + b * (a / b) := by omega
  rw [h1, Nat.add_mul_div_left _ _ hb]
  by_cases h : a % b = 0
  · rw [if_pos h]
    have : (a % b + b - 1) / b = 0 := Nat.div_eq_of_lt (by omega)
    omega
  · rw [if_neg h]
    have : (a % b + b - 1) / b = 1 :=
      Nat.div_eq_of_lt_le (by omega) (by omega)
    omega

theorem lmt_eq (A : PlasmaDesc) (h : 0 < A.mb) :
    lmt A = A.lm / A.mb + if A.lm % A.mb = 0 then 0 else 1 :=
  ceil_div_eq A.lm A.mb h

theorem lnt_eq (A : PlasmaDesc) (h : 0 < A.nb) :
    lnt A = A.ln / A.nb + if A.ln % A.nb = 0 then 0 else 1 :=
  ceil_div_eq A.ln A.nb h

theorem grid_row_cases (A : PlasmaDesc) (h : 0 < A.mb) (hmm : mm < lmt A) :
    mm < A.lm / A.mb ∨ (mm = A.lm / A.mb ∧ A.lm % A.mb ≠ 0) := by
  rw [lmt_eq A h] at hmm
  by_cases h0 : A.lm % A.mb = 0
  · rw [if_pos h0] at hmm; omega
  · rw [if_neg h0] at hmm; omega

theorem grid_col_cases (A : PlasmaDesc) (h : 0 < A.nb) (hnn : nn < lnt A) :
    nn < A.ln / A.nb ∨ (nn = A.ln / A.nb ∧ A.ln % A.nb ≠ 0) := by
  rw [lnt_eq A h] at hnn
  by_cases h0 : A.ln % A.nb = 0
  · rw [if_pos h0] at hnn; omega
  · rw [if_neg h0] at hnn; omega

theorem mainRows_eq (A : PlasmaDesc) : A.lm - A.lm % A.mb = A.mb * (A.lm / A.mb) := by
  have := Nat.div_add_mod A.lm A.mb
  omega

theorem mainCols_eq (A : PlasmaDesc) : A.ln - A.ln % A.nb = A.nb * (A.ln / A.nb) := by
  have := Nat.div_add_mod A.ln A.nb
  omega

theorem region_z11 (A : PlasmaDesc) (hmm : mm < A.lm / A.mb) (hnn : nn < A.ln / A.nb) :
    region A mm nn =
      Finset.Ico (A.mb * A.nb * (mm + (A.lm / A.mb) * nn))
        (A.mb * A.nb * (mm + (A.lm / A.mb) * nn) + A.mb * A.nb) := by
  unfold region gridOff tileH tileW
  rw [if_pos hmm, if_pos hnn, if_pos hmm, if_pos hnn]

theorem region_z21 (A : PlasmaDesc) (hmm : ¬ mm < A.lm / A.mb) (hnn : nn < A.ln / A.nb) :
    region A mm nn =
      Finset.Ico (descA21 A + (A.nb * (A.lm % A.mb)) * nn)
        (descA21 A + (A.nb * (A.lm % A.mb)) * nn + A.nb * (A.lm % A.mb)) := by
  unfold region gridOff tileH tileW
  rw [if_neg hmm, if_pos hnn, if_neg hmm, if_pos hnn]
  rw [Nat.mul_comm (A.lm % A.mb) A.nb]

theorem region_z12 (A : PlasmaDesc) (hmm : mm < A.lm / A.mb) (hnn : ¬ nn < A.ln / A.nb) :
    region A mm nn =
      Finset.Ico (descA12 A + (A.mb * (A.ln % A.nb)) * mm)
        (descA12 A + (A.mb * (A.ln % A.nb)) * mm + A.mb * (A.ln % A.nb)) := by
  unfold region gridOff tileH tileW
  rw [if_pos hmm, if_neg hnn, if_pos hmm, if_neg hnn]

theorem region_z22 (A : PlasmaDesc) (hmm : ¬ mm < A.lm / A.mb) (hnn : ¬ nn < A.ln / A.nb) :
    region A mm nn =
      Finset.Ico (descA22 A) (descA22 A + (A.lm % A.mb) * (A.ln % A.nb)) := by
  unfold region gridOff tileH tileW
  rw [if_neg hmm, if_neg hnn, if_neg hmm, if_neg hnn]

theorem z11_hi (A : PlasmaDesc) (hmm : mm < A.lm / A.mb) (hnn : nn < A.ln / A.nb) :
    A.mb * A.nb * (mm + (A.lm / A.mb) * nn) + A.mb * A.nb ≤ descA21 A := by
  have hq : (A.lm / A.mb) * nn + A.lm / A.mb ≤ (A.lm / A.mb) * (A.ln / A.nb) := by
    have := Nat.mul_le_mul_left (A.lm / A.mb) (by omega : nn + 1 ≤ A.ln / A.nb)
    rw [Nat.mul_add, Nat.mul_one] at this
    exact this
  have hrank : mm + (A.lm / A.mb) * nn + 1 ≤ (A.lm / A.mb) * (A.ln / A.nb) := by omega
  have h2 : A.mb * A.nb * (mm + (A.lm / A.mb) * nn) + A.mb * A.nb
      = A.mb * A.nb * (mm + (A.lm / A.mb) * nn + 1) := by ring
  have h3 : descA21 A = A.mb * A.nb * ((A.lm / A.mb) * (A.ln / A.nb)) := by
    unfold descA21
    rw [mainRows_eq, mainCols_eq]
    ring
  rw [h2, h3]
  exact Nat.mul_le_mul_left _ hrank

theorem z21_hi (A : PlasmaDesc) (hnn : nn < A.ln / A.nb) :
    descA21 A + (A.nb * (A.lm % A.mb)) * nn + A.nb * (A.lm % A.mb) ≤ descA12 A := by
  unfold descA12
  have h3 : (A.lm % A.mb) * (A.ln - A.ln % A.nb)
      = A.nb * (A.lm % A.mb) * (A.ln / A.nb) := by
    rw [mainCols_eq]; ring
  rw [h3]
  have : A.nb * (A.lm % A.mb) * nn + A.nb * (A.lm % A.mb)
      = A.nb * (A.lm % A.mb) * (nn + 1) := by ring
  rw [Nat.add_assoc, this]
  have := Nat.mul_le_mul_left (A.nb * (A.lm % A.mb)) (by omega : nn + 1 ≤ A.ln / A.nb)
  omega

theorem z12_hi (A : PlasmaDesc) (hmm : mm < A.lm / A.mb) :
    descA12 A + (A.mb * (A.ln % A.nb)) * mm + A.mb * (A.ln % A.nb) ≤ descA22 A := by
  unfold descA22
  have h3 : (A.lm - A.lm % A.mb) * (A.ln % A.nb)
      = A.mb * (A.ln % A.nb) * (A.lm / A.mb) := by
    rw [mainRows_eq]; ring
  rw [h3]
  have : A.mb * (A.ln % A.nb) * mm + A.mb * (A.ln % A.nb)
      = A.mb * (A.ln % A.nb) * (mm + 1) := by ring
  rw [Nat.add_assoc, this]
  have := Nat.mul_le_mul_left (A.mb * (A.ln % A.nb)) (by omega : mm + 1 ≤ A.lm / A.mb)
  omega

theorem z22_hi (A : PlasmaDesc) :
    descA22 A + (A.lm % A.mb) * (A.ln % A.nb) = A.lm * A.ln := by
  unfold descA22 descA12 descA21
  have e1 : A.lm % A.mb ≤ A.lm := Nat.mod_le _ _
  have e2 : A.ln % A.nb ≤ A.ln := Nat.mod_le _ _
  zify [e1, e2]
  ring

theorem ico_disjoint {a b c d : Nat} (h : b ≤ c) :
    Disjoint (Finset.Ico a b) (Finset.Ico c d) := by
  simp only [Finset.disjoint_left, Finset.mem_Ico]
  omega

theorem stride_disjoint (base s r1 r2 : Nat) (h : r1 ≠ r2) :
    Disjoint (Finset.Ico (base + s * r1) (base + s * r1 + s))
      (Finset.Ico (base + s * r2) (base + s * r2 + s)) := by
  rcases Nat.lt_or_ge r1 r2 with hlt | hge
  · refine ico_disjoint ?_
    have := Nat.mul_le_mul_left s (by omega : r1 + 1 ≤ r2)
    rw [Nat.mul_add, Nat.mul_one] at this
    omega
  · have hlt : r2 < r1 := by omega
    refine (ico_disjoint ?_).symm
    have := Nat.mul_le_mul_left s (by omega : r2 + 1 ≤ r1)
    rw [Nat.mul_add, Nat.mul_one] at this
    omega

theorem rank_inj (q mm nn mm2 nn2 : Nat) (h1 : mm < q) (h2 : mm2 < q)
    (he : mm + q * nn = mm2 + q * nn2) : mm = mm2 ∧ nn = nn2 := by
  rcases Nat.lt_trichotomy nn nn2 with hlt | heq | hgt
  · exfalso
    have h3 := Nat.mul_le_mul_left q (by omega : nn + 1 ≤ nn2)
    rw [Nat.mul_add, Nat.mul_one] at h3
    omega
  · subst heq; omega
  · exfalso
    have h3 := Nat.mul_le_mul_left q (by omega : nn2 + 1 ≤ nn)
    rw [Nat.mul_add, Nat.mul_one] at h3
    omega

/-- The zone-index of an absolute tile: 0 for A11, 1 for A21, 2 for A12,
3 for A22. -/
def zoneIdx (A : PlasmaDesc) (mm nn : Nat) : Nat :=
  (if mm < A.lm / A.mb then 0 else 1) + 2 * (if nn < A.ln / A.nb then 0 else 1)

/-- The extent of each storage zone inside the backing store. -/
def zoneIco (A : PlasmaDesc) : Nat → Finset Nat
  | 0 => Finset.Ico 0 (descA21 A)
  | 1 => Finset.Ico (descA21 A) (descA12 A)
  | 2 => Finset.Ico (descA12 A) (descA22 A)
  | _ => Finset.Ico (descA22 A) (A.lm * A.ln)

theorem region_subset_zone (A : PlasmaDesc) (mm nn : Nat) :
    region A mm nn ⊆ zoneIco A (zoneIdx A mm nn) := by
  by_cases c1 : mm < A.lm / A.mb <;> by_cases c2 : nn < A.ln / A.nb
  · rw [region_z11 A c1 c2]
    simp only [zoneIdx, if_pos c1, if_pos c2, zoneIco]
    exact Finset.Ico_subset_Ico (Nat.zero_le _) (z11_hi A c1 c2)
  · rw [region_z12 A c1 c2]
    simp only [zoneIdx, if_pos c1, if_neg c2, zoneIco]
    exact Finset.Ico_subset_Ico (Nat.le_add_right _ _) (z12_hi A c1)
  · rw [region_z21 A c1 c2]
    simp only [zoneIdx, if_neg c1, if_pos c2, zoneIco]
    exact Finset.Ico_subset_Ico (Nat.le_add_right _ _) (z21_hi A c2)
  · rw [region_z22 A c1 c2]
    simp only [zoneIdx, if_neg c1, if_neg c2, zoneIco]
    exact Finset.Ico_subset_Ico (Nat.le_refl _) (le_of_eq (z22_hi A))

theorem zoneIco_le (A : PlasmaDesc) :
    descA21 A ≤ descA12 A ∧ descA12 A ≤ descA22 A ∧ descA22 A ≤ A.lm * A.ln := by
  refine ⟨Nat.le_add_right _ _, Nat.le_add_right _ _, ?_⟩
  have := z22_hi A
  omega

theorem zones_disjoint (A : PlasmaDesc) (z1 z2 : Nat) (h1 : z1 < 4) (h2 : z2 < 4)
    (hne : z1 ≠ z2) : Disjoint (zoneIco A z1) (zoneIco A z2) := by
  obtain ⟨ha, hb, hc⟩ := zoneIco_le A
  interval_cases z1 <;> interval_cases z2 <;>
    simp only [zoneIco] <;>
    first
      | exact absurd rfl hne
      | exact ico_disjoint (by omega)
      | exact (ico_disjoint (by omega)).symm

theorem region_disjoint (A : PlasmaDesc) (h : 0 < A.mb) (h2 : 0 < A.nb)
    (hmm : mm < lmt A) (hnn : nn < lnt A) (hmm2 : mm2 < lmt A) (hnn2 : nn2 < lnt A)
    (hne : (mm, nn) ≠ (mm2, nn2)) :
    Disjoint (region A mm nn) (region A mm2 nn2) := by
  by_cases hz : zoneIdx A mm nn = zoneIdx A mm2 nn2
  · -- same zone: stride argument
    by_cases c1 : mm < A.lm / A.mb <;> by_cases c2 : nn < A.ln / A.nb <;>
      by_cases d1 : mm2 < A.lm / A.mb <;> by_cases d2 : nn2 < A.ln / A.nb <;>
      simp only [zoneIdx, c1, c2, d1, d2, if_true, if_false] at hz <;>
      try omega
    · -- both A11
      rw [region_z11 A c1 c2, region_z11 A d1 d2]
      have hr : mm + (A.lm / A.mb) * nn ≠ mm2 + (A.lm / A.mb) * nn2 := by
        intro he
        obtain ⟨e1, e2⟩ := rank_inj (A.lm / A.mb) mm nn mm2 nn2 c1 d1 he
        exact hne (by rw [e1, e2])
      have := stride_disjoint 0 (A.mb * A.nb) (mm + (A.lm / A.mb) * nn)
        (mm2 + (A.lm / A.mb) * nn2) hr
      simpa using this
    · -- both A12 (right edge): nn = nn2 = ln/nb, mm ≠ mm2
      rw [region_z12 A c1 c2, region_z12 A d1 d2]
      have hmne : mm ≠ mm2 := by
        intro he
        have e2 : nn = nn2 := by
          have b1 : nn = A.ln / A.nb := by
            rcases grid_col_cases A h2 hnn with hcase | hcase
            · exact absurd hcase c2
            · exact hcase.1
          have b2 : nn2 = A.ln / A.nb := by
            rcases grid_col_cases A h2 hnn2 with hcase | hcase
            · exact absurd hcase d2
            · exact hcase.1
          rw [b1, b2]
        exact hne (by rw [he, e2])
      exact stride_disjoint (descA12 A) (A.mb * (A.ln % A.nb)) mm mm2 hmne
    · -- both A21 (bottom edge): mm = mm2 = lm/mb, nn ≠ nn2
      rw [region_z21 A c1 c2, region_z21 A d1 d2]
      have hnne : nn ≠ nn2 := by
        intro he
        have e1 : mm = mm2 := by
          have b1 : mm = A.lm / A.mb := by
            rcases grid_row_cases A h hmm with hcase | hcase
            · exact absurd hcase c1
            · exact hcase.1
          have b2 : mm2 = A.lm / A.mb := by
            rcases grid_row_cases A h hmm2 with hcase | hcase
            · exact absurd hcase d1
            · exact hcase.1
          rw [b1, b2]
        exact hne (by rw [e1, he])
      exact stride_disjoint (descA21 A) (A.nb * (A.lm % A.mb)) nn nn2 hnne
    · -- both A22: impossible, the corner tile is unique
      exfalso
      have b1 : mm = A.lm / A.mb := by
        rcases grid_row_cases A h hmm with hcase | hcase
        · exact absurd hcase c1
        · exact hcase.1
      have b2 : mm2 = A.lm / A.mb := by
        rcases grid_row_cases A h hmm2 with hcase | hcase
        · exact absurd hcase d1
        · exact hcase.1
      have b3 : nn = A.ln / A.nb := by
        rcases grid_col_cases A h2 hnn with hcase | hcase
        · exact absurd hcase c2
        · exact hcase.1
      have b4 : nn2 = A.ln / A.nb := by
        rcases grid_col_cases A h2 hnn2 with hcase | hcase
        · exact absurd hcase d2
        · exact hcase.1
      exact hne (by rw [b1, b2, b3, b4])
  · -- different zones
    have s1 := region_subset_zone A mm nn
    have s2 := region_subset_zone A mm2 nn2
    have hz1 : zoneIdx A mm nn < 4 := by
      unfold zoneIdx
      by_cases c1 : mm < A.lm / A.mb <;> by_cases c2 : nn < A.ln / A.nb <;>
        simp [c1, c2]
    have hz2 : zoneIdx A mm2 nn2 < 4 := by
      unfold zoneIdx
      by_cases c1 : mm2 < A.lm / A.mb <;> by_cases c2 : nn2 < A.ln / A.nb <;>
        simp [c1, c2]
    exact Finset.disjoint_of_subset_left s1
      (Finset.disjoint_of_subset_right s2 (zones_disjoint A _ _ hz1 hz2 hz))

theorem sum_tileH (A : PlasmaDesc) (h : 0 < A.mb) :
    ∑ mm ∈ Finset.range (lmt A), tileH A mm = A.lm := by
  have hfull : ∑ mm ∈ Finset.range (A.lm / A.mb), tileH A mm
      = (A.lm / A.mb) * A.mb := by
    rw [Finset.sum_congr rfl (fun x hx => ?_), Finset.sum_const, Finset.card_range,
      smul_eq_mul]
    unfold tileH
    rw [if_pos (Finset.mem_range.mp hx)]
  have hmod : A.lm / A.mb * A.mb + A.lm % A.mb = A.lm := Nat.div_add_mod' _ _
  rw [lmt_eq A h]
  by_cases h0 : A.lm % A.mb = 0
  · rw [if_pos h0, Nat.add_zero, hfull]
    omega
  · rw [if_neg h0, Finset.sum_range_succ, hfull]
    unfold tileH
    rw [if_neg (Nat.lt_irrefl _)]
    omega

theorem sum_tileW (A : PlasmaDesc) (h : 0 < A.nb) :
    ∑ nn ∈ Finset.range (lnt A), tileW A nn = A.ln := by
  have hfull : ∑ nn ∈ Finset.range (A.ln / A.nb), tileW A nn
      = (A.ln / A.nb) * A.nb := by
    rw [Finset.sum_congr rfl (fun x hx => ?_), Finset.sum_const, Finset.card_range,
      smul_eq_mul]
    unfold tileW
    rw [if_pos (Finset.mem_range.mp hx)]
  have hmod : A.ln / A.nb * A.nb + A.ln % A.nb = A.ln := Nat.div_add_mod' _ _
  rw [lnt_eq A h]
  by_cases h0 : A.ln % A.nb = 0
  · rw [if_pos h0, Nat.add_zero, hfull]
    omega
  · rw [if_neg h0, Finset.sum_range_succ, hfull]
    unfold tileW
    rw [if_neg (Nat.lt_irrefl _)]
    omega

theorem regions_cover (A : PlasmaDesc) (h : 0 < A.mb) (h2 : 0 < A.nb) :
    (Finset.range (lmt A) ×ˢ Finset.range (lnt A)).biUnion
      (fun p => region A p.1 p.2) = Finset.range (A.lm * A.ln) := by
  have hsub : (Finset.range (lmt A) ×ˢ Finset.range (lnt A)).biUnion
      (fun p => region A p.1 p.2) ⊆ Finset.range (A.lm * A.ln) := by
    intro x hx
    obtain ⟨p, hp, hxp⟩ := Finset.mem_biUnion.mp hx
    obtain ⟨hp1, hp2⟩ := Finset.mem_product.mp hp
    have hz := region_subset_zone A p.1 p.2
    have hle := zoneIco_le A
    have hxz := hz hxp
    rcases hzi : zoneIdx A p.1 p.2 with _ | _ | _ | z4
    all_goals rw [hzi] at hxz
    · simp only [zoneIco, Finset.mem_Ico] at hxz
      exact Finset.mem_range.mpr (by omega)
    · simp only [zoneIco, Finset.mem_Ico] at hxz
      exact Finset.mem_range.mpr (by omega)
    · simp only [zoneIco, Finset.mem_Ico] at hxz
      exact Finset.mem_range.mpr (by omega)
    · simp only [zoneIco, Finset.mem_Ico] at hxz
      exact Finset.mem_range.mpr (by omega)
  refine Finset.eq_of_subset_of_card_le hsub ?_
  have hdisj : ∀ p ∈ Finset.range (lmt A) ×ˢ Finset.range (lnt A),
      ∀ q ∈ Finset.range (lmt A) ×ˢ Finset.range (lnt A),
      p ≠ q → Disjoint (region A p.1 p.2) (region A q.1 q.2) := by
    intro p hp q hq hpq
    obtain ⟨hp1, hp2⟩ := Finset.mem_product.mp hp
    obtain ⟨hq1, hq2⟩ := Finset.mem_product.mp hq
    refine region_disjoint A h h2 (Finset.mem_range.mp hp1) (Finset.mem_range.mp hp2)
      (Finset.mem_range.mp hq1) (Finset.mem_range.mp hq2) ?_
    intro he
    exact hpq (Prod.ext (congrArg Prod.fst he) (congrArg Prod.snd he))
  rw [Finset.card_biUnion hdisj, Finset.card_range]
  have hcard : ∀ p ∈ Finset.range (lmt A) ×ˢ Finset.range (lnt A),
      (region A p.1 p.2).card = tileH A p.1 * tileW A p.2 := by
    intro p hp
    unfold region
    rw [Nat.card_Ico]
    omega
  rw [Finset.sum_congr rfl hcard, Finset.sum_product]
  have : ∑ x ∈ Finset.range (lmt A), ∑ y ∈ Finset.range (lnt A),
      tileH A x * tileW A y
      = (∑ x ∈ Finset.range (lmt A), tileH A x)
        * (∑ y ∈ Finset.range (lnt A), tileW A y) := by
    rw [Finset.sum_mul_sum]
  rw [this, sum_tileH A h, sum_tileW A h2]

theorem subtile_in_grid_row (A : PlasmaDesc) (hA : Valid A) (htm : tm < mt A) :
    tm + A.i / A.mb < lmt A := by
  obtain ⟨hmb, hnb, him, hjn⟩ := hA
  have h1 : mt A + A.i / A.mb = (A.i + A.m + A.mb - 1) / A.mb := by
    unfold mt
    rw [← Nat.add_mul_div_left _ _ hmb]
    congr 1
    have := Nat.mod_add_div A.i A.mb
    omega
  have h2 : (A.i + A.m + A.mb - 1) / A.mb ≤ lmt A := by
    unfold lmt
    exact Nat.div_le_div_right (by omega)
  omega

theorem subtile_in_grid_col (A : PlasmaDesc) (hA : Valid A) (htn : tn < nt A) :
    tn + A.j / A.nb < lnt A := by
  obtain ⟨hmb, hnb, him, hjn⟩ := hA
  have h1 : nt A + A.j / A.nb = (A.j + A.n + A.nb - 1) / A.nb := by
    unfold nt
    rw [← Nat.add_mul_div_left _ _ hnb]
    congr 1
    have := Nat.mod_add_div A.j A.nb
    omega
  have h2 : (A.j + A.n + A.nb - 1) / A.nb ≤ lnt A := by
    unfold lnt
    exact Nat.div_le_div_right (by omega)
  omega

theorem mmain_eq_tileH (A : PlasmaDesc) (k : Nat) :
    plasma_tile_mmain A k = tileH A (k + A.i / A.mb) := by
  unfold plasma_tile_mmain tileH
  rw [Nat.add_comm k (A.i / A.mb)]

theorem nmain_eq_tileW (A : PlasmaDesc) (k : Nat) :
    plasma_tile_nmain A k = tileW A (k + A.j / A.nb) := by
  unfold plasma_tile_nmain tileW
  rw [Nat.add_comm k (A.j / A.nb)]

/-- C2: tile addressing is an injective partition of the backing store.
For a valid general descriptor: (1) any two distinct in-range submatrix
tile indices are mapped by plasma_tile_addr (general case) to disjoint
element ranges (each of extent mmain * nmain, the tile's storage size);
(2) the union of the per-tile ranges over all tiles of the stored
lmt by lnt grid is exactly the backing store of lm * ln elements.
Addresses are pure functions of the descriptor and the indices, so a
tile address is deterministic from (m, n) alone. -/
theorem tile_addr_partitions_store (A : PlasmaDesc) (hA : Valid A) :
    (∀ tm tn tm2 tn2, tm < mt A → tn < nt A → tm2 < mt A → tn2 < nt A →
      (tm, tn) ≠ (tm2, tn2) →
      Disjoint
        (Finset.Ico (plasma_tile_addr_general A tm tn)
          (plasma_tile_addr_general A tm tn
            + plasma_tile_mmain A tm * plasma_tile_nmain A tn))
        (Finset.Ico (plasma_tile_addr_general A tm2 tn2)
          (plasma_tile_addr_general A tm2 tn2
            + plasma_tile_mmain A tm2 * plasma_tile_nmain A tn2))) ∧
    (Finset.range (lmt A) ×ˢ Finset.range (lnt A)).biUnion
      (fun p => Finset.Ico (gridOff A p.1 p.2)
        (gridOff A p.1 p.2 + tileH A p.1 * tileW A p.2))
      = Finset.range (A.lm * A.ln) := by
  have hmb : 0 < A.mb := hA.1
  have hnb : 0 < A.nb := hA.2.1
  constructor
  · intro tm tn tm2 tn2 h1 h2 h3 h4 hne
    have e1 : ∀ a b : Nat,
        Finset.Ico (plasma_tile_addr_general A a b)
          (plasma_tile_addr_general A a b
            + plasma_tile_mmain A a * plasma_tile_nmain A b)
        = region A (a + A.i / A.mb) (b + A.j / A.nb) := by
      intro a b
      unfold region plasma_tile_addr_general
      rw [mmain_eq_tileH, nmain_eq_tileW]
    rw [e1, e1]
    refine region_disjoint A hmb hnb (subtile_in_grid_row A hA h1)
      (subtile_in_grid_col A hA h2) (subtile_in_grid_row A hA h3)
      (subtile_in_grid_col A hA h4) ?_
    intro he
    apply hne
    have ha := congrArg Prod.fst he
    have hb := congrArg Prod.snd he
    simp only at ha hb
    have : tm = tm2 := by omega
    have : tn = tn2 := by omega
    simp_all
  · exact regions_cover A hmb hnb

/-- Witness for tile_addr_partitions_store: the descriptor descMV is
valid, tiles (0,0) and (1,0) of its submatrix occupy disjoint ranges,
and the grid covers its 12-element store. -/
theorem tile_addr_partitions_store_witness :
    Disjoint
      (Finset.Ico (plasma_tile_addr_general descMV 0 0)
        (plasma_tile_addr_general descMV 0 0
          + plasma_tile_mmain descMV 0 * plasma_tile_nmain descMV 0))
      (Finset.Ico (plasma_tile_addr_general descMV 1 0)
        (plasma_tile_addr_general descMV 1 0
          + plasma_tile_mmain descMV 1 * plasma_tile_nmain descMV 0)) ∧
    (Finset.range (lmt descMV) ×ˢ Finset.range (lnt descMV)).biUnion
      (fun p => Finset.Ico (gridOff descMV p.1 p.2)
        (gridOff descMV p.1 p.2 + tileH descMV p.1 * tileW descMV p.2))
      = Finset.range (descMV.lm * descMV.ln) := by
  have h := tile_addr_partitions_store descMV
    ⟨by decide, by decide, by decide, by decide⟩
  exact ⟨h.1 0 0 1 0 (by decide) (by decide) (by decide) (by decide) (by decide),
    h.2⟩

/-! ## plasma_pzgemm: the emitted tile-kernel DAG -/

/-- One core_omp_zgemm tile-kernel submission, with the arguments the
source passes: transposition modes, the three GEMM dimensions
(mdim, ndim, kdim), the scalar alpha, the A and B tile indices and
leading dimensions, the scaling factor zbeta applied to the C tile, and
the C tile index and leading dimension. -/
structure GemmKernel (α : Type) where
  transA : PlasmaEnum
  transB : PlasmaEnum
  mdim : Nat
  ndim : Nat
  kdim : Nat
  alpha : α
  aTile : Nat × Nat
  lda : Nat
  bTile : Nat × Nat
  ldb : Nat
  zbeta : α
  cTile : Nat × Nat
  ldc : Nat
  deriving DecidableEq

/-- The kernels plasma_pzgemm submits for one output tile (m, n) of C:
if alpha is 0 or the inner dimension (A.n for NoTrans, A.m otherwise)
is 0, a single kernel with k-dimension 0 — which computes
C(m,n) := beta * C(m,n) — otherwise one GEMM kernel per inner tile
index k, with scaling factor beta at k = 0 and 1 afterwards, the tile
indices of A and B depending on the transposition combination. -/
def pzgemmBlock {α : Type} [DecidableEq α] [Zero α] [One α]
    (transA transB : PlasmaEnum) (alpha : α) (A B : PlasmaDesc) (beta : α)
    (C : PlasmaDesc) (m n : Nat) : List (GemmKernel α) :=
  let mvcm := plasma_tile_mview C m
  let ldcm := plasma_tile_mmain C m
  let nvcn := plasma_tile_nview C n
  let innerK := if transA = PlasmaEnum.noTrans then A.n else A.m
  if alpha = 0 ∨ innerK = 0 then
    [{ transA := transA, transB := transB, mdim := mvcm, ndim := nvcn, kdim := 0,
       alpha := alpha, aTile := (0, 0), lda := max 1 (plasma_tile_mmain A 0),
       bTile := (0, 0), ldb := max 1 (plasma_tile_mmain B 0),
       zbeta := beta, cTile := (m, n), ldc := ldcm }]
  else if transA = PlasmaEnum.noTrans then
    if transB = PlasmaEnum.noTrans then
      (List.range (nt A)).map fun k =>
        { transA := transA, transB := transB, mdim := mvcm, ndim := nvcn,
          kdim := plasma_tile_nview A k, alpha := alpha,
          aTile := (m, k), lda := plasma_tile_mmain A m,
          bTile := (k, n), ldb := plasma_tile_mmain B k,
          zbeta := if k = 0 then beta else 1, cTile := (m, n), ldc := ldcm }
    else
      (List.range (nt A)).map fun k =>
        { transA := transA, transB := transB, mdim := mvcm, ndim := nvcn,
          kdim := plasma_tile_nview A k, alpha := alpha,
          aTile := (m, k), lda := plasma_tile_mmain A m,
          bTile := (n, k), ldb := plasma_tile_mmain B n,
          zbeta := if k = 0 then beta else 1, cTile := (m, n), ldc := ldcm }
  else
    if transB = PlasmaEnum.noTrans then
      (List.range (mt A)).map fun k =>
        { transA := transA, transB := transB, mdim := mvcm, ndim := nvcn,
          kdim := plasma_tile_mview A k, alpha := alpha,
          aTile := (k, m), lda := plasma_tile_mmain A k,
          bTile := (k, n), ldb := plasma_tile_mmain B k,
          zbeta := if k = 0 then beta else 1, cTile := (m, n), ldc := ldcm }
    else
      (List.range (mt A)).map fun k =>
        { transA := transA, transB := transB, mdim := mvcm, ndim := nvcn,
          kdim := plasma_tile_mview A k, alpha := alpha,
          aTile := (k, m), lda := plasma_tile_mmain A k,
          bTile := (n, k), ldb := plasma_tile_mmain B n,
          zbeta := if k = 0 then beta else 1, cTile := (m, n), ldc := ldcm }

/-- plasma_pzgemm: the full list of tile-kernel submissions, looping
over the C tile grid with m outer and n inner; the per-tile body is
pzgemmBlock. -/
def plasma_pzgemm {α : Type} [DecidableEq α] [Zero α] [One α]
    (transA transB : PlasmaEnum) (alpha : α) (A B : PlasmaDesc) (beta : α)
    (C : PlasmaDesc) : List (GemmKernel α) :=
  (List.range (mt C)).flatMap fun m =>
    (List.range (nt C)).flatMap fun n =>
      pzgemmBlock transA transB alpha A B beta C m n

theorem pzgemmBlock_cTile {α : Type} [DecidableEq α] [Zero α] [One α]
    (transA transB : PlasmaEnum) (alpha : α) (A B : PlasmaDesc) (beta : α)
    (C : PlasmaDesc) (m n : Nat) :
    ∀ kr ∈ pzgemmBlock transA transB alpha A B beta C m n, kr.cTile = (m, n) := by
  intro kr hkr
  simp only [pzgemmBlock] at hkr
  by_cases h1 : alpha = 0 ∨ (if transA = PlasmaEnum.noTrans then A.n else A.m) = 0
  · rw [if_pos h1] at hkr
    simp only [List.mem_singleton] at hkr
    rw [hkr]
  · rw [if_neg h1] at hkr
    by_cases h2 : transA = PlasmaEnum.noTrans
    · rw [if_pos h2] at hkr
      by_cases h3 : transB = PlasmaEnum.noTrans
      · rw [if_pos h3] at hkr
        simp only [List.mem_map] at hkr
        obtain ⟨k, hk, he⟩ := hkr
        rw [← he]
      · rw [if_neg h3] at hkr
        simp only [List.mem_map] at hkr
        obtain ⟨k, hk, he⟩ := hkr
        rw [← he]
    · rw [if_neg h2] at hkr
      by_cases h3 : transB = PlasmaEnum.noTrans
      · rw [if_pos h3] at hkr
        simp only [List.mem_map] at hkr
        obtain ⟨k, hk, he⟩ := hkr
        rw [← he]
      · rw [if_neg h3] at hkr
        simp only [List.mem_map] at hkr
        obtain ⟨k, hk, he⟩ := hkr
        rw [← he]

theorem flatMap_single {β γ : Type} (l : List β) (g : β → List γ) (b : β)
    (hb : b ∈ l) (hnd : l.Nodup) (h : ∀ a ∈ l, a ≠ b → g a = []) :
    l.flatMap g = g b := by
  induction l with
  | nil => cases hb
  | cons x t ih =>
    rw [List.flatMap_cons]
    rcases List.mem_cons.mp hb with he | hbt
    · subst he
      have ht : t.flatMap g = [] := by
        rw [List.flatMap_eq_nil_iff]
        intro a ha
        refine h a (List.mem_cons_of_mem _ ha) ?_
        intro he2
        exact (List.nodup_cons.mp hnd).1 (he2 ▸ ha)
      rw [ht, List.append_nil]
    · have hx : g x = [] := by
        refine h x (List.mem_cons_self _ _) ?_
        intro he2
        exact (List.nodup_cons.mp hnd).1 (he2 ▸ hbt)
      rw [hx, List.nil_append]
      exact ih hbt (List.nodup_cons.mp hnd).2
        (fun a ha hne => h a (List.mem_cons_of_mem _ ha) hne)

theorem pzgemmBlock_filter {α : Type} [DecidableEq α] [Zero α] [One α]
    (transA transB : PlasmaEnum) (alpha : α) (A B : PlasmaDesc) (beta : α)
    (C : PlasmaDesc) (m n m2 n2 : Nat) :
    (pzgemmBlock transA transB alpha A B beta C m2 n2).filter
        (fun kr => decide (kr.cTile = (m, n)))
      = if m2 = m ∧ n2 = n
        then pzgemmBlock transA transB alpha A B beta C m2 n2 else [] := by
  by_cases h : m2 = m ∧ n2 = n
  · rw [if_pos h, List.filter_eq_self]
    intro kr hkr
    rw [pzgemmBlock_cTile transA transB alpha A B beta C m2 n2 kr hkr]
    simp [h.1, h.2]
  · rw [if_neg h, List.filter_eq_nil_iff]
    intro kr hkr
    rw [pzgemmBlock_cTile transA transB alpha A B beta C m2 n2 kr hkr]
    simp only [decide_eq_true_eq, Prod.mk.injEq]
    intro he
    exact h he

/-- C3: for every in-range output tile (m, n) of C, the kernels of the
plasma_pzgemm DAG that touch C(m, n) are exactly pzgemmBlock m n: one
beta-scaling kernel with k-dimension 0 when alpha = 0 or the inner
dimension is 0, and otherwise exactly one accumulating GEMM kernel per
inner tile index k (A.nt of them for NoTrans, A.mt otherwise), with
scaling factor beta at k = 0 and 1 on every later k, in all four
transposition combinations; no kernel emitted for another output tile
addresses C(m, n). -/
theorem pzgemm_inner_filter {α : Type} [DecidableEq α] [Zero α] [One α]
    (transA transB : PlasmaEnum) (alpha : α) (A B : PlasmaDesc) (beta : α)
    (C : PlasmaDesc) (m n m2 : Nat) (hn : n < nt C) :
    ((List.range (nt C)).flatMap fun n2 =>
      (pzgemmBlock transA transB alpha A B beta C m2 n2).filter
        (fun kr => decide (kr.cTile = (m, n))))
      = if m2 = m then pzgemmBlock transA transB alpha A B beta C m n else [] := by
  by_cases hm2 : m2 = m
  · rw [if_pos hm2]
    have hs : ∀ a ∈ List.range (nt C), a ≠ n →
        (fun n2 => (pzgemmBlock transA transB alpha A B beta C m2 n2).filter
          (fun kr => decide (kr.cTile = (m, n)))) a = [] := by
      intro a ha hne
      refine (pzgemmBlock_filter transA transB alpha A B beta C m n m2 a).trans ?_
      rw [if_neg]
      intro hcon
      exact hne hcon.2
    have hmain := flatMap_single (List.range (nt C))
      (fun n2 => (pzgemmBlock transA transB alpha A B beta C m2 n2).filter
        (fun kr => decide (kr.cTile = (m, n)))) n
      (List.mem_range.mpr hn) (List.nodup_range _) hs
    refine hmain.trans ?_
    refine (pzgemmBlock_filter transA transB alpha A B beta C m n m2 n).trans ?_
    rw [if_pos ⟨hm2, rfl⟩, hm2]
  · rw [if_neg hm2, List.flatMap_eq_nil_iff]
    intro n2 hn2
    refine (pzgemmBlock_filter transA transB alpha A B beta C m n m2 n2).trans ?_
    rw [if_neg]
    intro hcon
    exact hm2 hcon.1

/-- C3: for every in-range output tile (m, n) of C, the kernels of the
plasma_pzgemm DAG that touch C(m, n) are exactly pzgemmBlock m n: one
beta-scaling kernel with k-dimension 0 when alpha = 0 or the inner
dimension is 0, and otherwise exactly one accumulating GEMM kernel per
inner tile index k (A.nt of them for NoTrans, A.mt otherwise), with
scaling factor beta at k = 0 and 1 on every later k, in all four
transposition combinations; no kernel emitted for another output tile
addresses C(m, n). -/
theorem pzgemm_per_tile {α : Type} [DecidableEq α] [Zero α] [One α]
    (transA transB : PlasmaEnum) (alpha : α) (A B : PlasmaDesc) (beta : α)
    (C : PlasmaDesc) (m n : Nat) (hm : m < mt C) (hn : n < nt C) :
    (plasma_pzgemm transA transB alpha A B beta C).filter
        (fun kr => decide (kr.cTile = (m, n)))
      = pzgemmBlock transA transB alpha A B beta C m n := by
  unfold plasma_pzgemm
  simp only [List.filter_flatMap]
  have houter := flatMap_single (List.range (mt C))
    (fun m2 => (List.range (nt C)).flatMap fun n2 =>
      (pzgemmBlock transA transB alpha A B beta C m2 n2).filter
        (fun kr => decide (kr.cTile = (m, n)))) m
    (List.mem_range.mpr hm) (List.nodup_range _)
    (fun a _ hne =>
      (pzgemm_inner_filter transA transB alpha A B beta C m n a hn).trans
        (by rw [if_neg hne]))
  refine houter.trans ?_
  refine (pzgemm_inner_filter transA transB alpha A B beta C m n m hn).trans ?_
  rw [if_pos rfl]

/-- Concrete descriptors for the GEMM witness: C is 4 by 4 with 2 by 2
tiles, A is 4 by 4, B is 4 by 4, all full-view. -/
def descG (d : Nat) : PlasmaDesc :=
  { typ := DescType.general, uplo := PlasmaEnum.general
    mb := 2, nb := 2, lm := d, ln := d, i := 0, j := 0, m := d, n := d
    kl := 0, ku := 0 }

/-- Witness for pzgemm_per_tile at a concrete instance: NoTrans/NoTrans,
alpha = 1, beta = 2 over Int, output tile (1, 0) of a 2 by 2 tile grid. -/
theorem pzgemm_per_tile_witness :
    (plasma_pzgemm PlasmaEnum.noTrans PlasmaEnum.noTrans (1 : Int)
        (descG 4) (descG 4) (2 : Int) (descG 4)).filter
        (fun kr => decide (kr.cTile = (1, 0)))
      = pzgemmBlock PlasmaEnum.noTrans PlasmaEnum.noTrans (1 : Int)
          (descG 4) (descG 4) (2 : Int) (descG 4) 1 0 :=
  pzgemm_per_tile PlasmaEnum.noTrans PlasmaEnum.noTrans 1 (descG 4) (descG 4) 2
    (descG 4) 1 0 (by decide) (by decide)

/-! ## plasma_pzoocm2ccrb_band: band-window tile ranges -/

/-- One core_omp_zlacpy_lapack2tile_band task submission of the band
layout translation: the tile index (m, n), the copied extents
mb = min(A.mb, A.m - m*A.mb) and nb = min(A.nb, A.n - n*A.nb), and the
tile leading dimension. -/
structure BandCopy where
  m : Nat
  n : Nat
  mb : Nat
  nb : Nat
  ld : Nat
  deriving DecidableEq, Repr

/-- The first tile row copied for tile column n, per uplo; the C computes
imax(0, n*nb - ku - kl) (resp. - ku, resp. nothing) in a signed int and
then divides by nb, which Nat truncated subtraction reproduces. -/
def bandMStart (uplo : PlasmaEnum) (A : PlasmaDesc) (n : Nat) : Nat :=
  if uplo = PlasmaEnum.general then (n * A.nb - A.ku - A.kl) / A.nb
  else if uplo = PlasmaEnum.upper then (n * A.nb - A.ku) / A.nb
  else n * A.nb / A.nb

/-- The last tile row copied for tile column n, per uplo: the row of
min(A.m - 1, (n+1)*nb + kl - 1) (the kl term dropped for Upper).
Meaningful for A.m >= 1, where the Nat subtraction matches the C. -/
def bandMEnd (uplo : PlasmaEnum) (A : PlasmaDesc) (n : Nat) : Nat :=
  if uplo = PlasmaEnum.general then min (A.m - 1) ((n + 1) * A.nb + A.kl - 1) / A.nb
  else if uplo = PlasmaEnum.upper then min (A.m - 1) ((n + 1) * A.nb - 1) / A.nb
  else min (A.m - 1) ((n + 1) * A.nb + A.kl - 1) / A.nb

/-- plasma_pzoocm2ccrb_band: the list of band tile-copy tasks, one per
tile column n and tile row m from bandMStart to bandMEnd inclusive
(an empty range when bandMEnd + 1 <= bandMStart, as in the C loop). -/
def plasma_pzoocm2ccrb_band (status : Int) (uplo : PlasmaEnum)
    (A : PlasmaDesc) : List BandCopy :=
  if status ≠ 0 then []
  else
    (List.range (nt A)).flatMap fun n =>
      (List.range (bandMEnd uplo A n + 1 - bandMStart uplo A n)).map fun t =>
        let m := bandMStart uplo A n + t
        { m := m, n := n
          mb := min A.mb (A.m - m * A.mb)
          nb := min A.nb (A.n - n * A.nb)
          ld := BLKLDD_BAND uplo A m n }

/-- The lower bound the claim asserts: the CEILING of
max(0, n*nb - ku - kl)/nb (kl dropped for Upper, ku for Lower). -/
def claimedBandMStart (uplo : PlasmaEnum) (A : PlasmaDesc) (n : Nat) : Nat :=
  if uplo = PlasmaEnum.general then (n * A.nb - A.ku - A.kl + A.nb - 1) / A.nb
  else if uplo = PlasmaEnum.upper then (n * A.nb - A.ku + A.nb - 1) / A.nb
  else (n * A.nb + A.nb - 1) / A.nb

/-- A band descriptor on which floor and ceiling differ: nb = 2, ku = 1,
kl = 0, 3 tile rows, 2 tile columns. -/
def descBand : PlasmaDesc :=
  { typ := DescType.generalBand, uplo := PlasmaEnum.general
    mb := 2, nb := 2, lm := 6, ln := 4, i := 0, j := 0, m := 6, n := 4
    kl := 0, ku := 1 }

/-- C6, counterexample: for tile column n = 1 of descBand the claimed
ceiling lower bound is 1, yet the source copies tile row 0 as well
(floor((2-1)/2) = 0) — and rightly so: the band rows of column 2 are
rows 1..2, which meet tile row 0.  The claim's ceiling is not the
code's (or the band's) lower bound. -/
theorem oocm2ccrb_band_ceil_not_code :
    (∃ op ∈ plasma_pzoocm2ccrb_band 0 PlasmaEnum.general descBand,
        op.m = 0 ∧ op.n = 1) ∧
    claimedBandMStart PlasmaEnum.general descBand 1 = 1 := by
  constructor
  · decide
  · decide

/-- C6, amended (ceiling replaced by the code's floor): the band
translation copies, for each tile column n < A.nt, exactly the tile
rows m with floor(max(0, n*nb-ku-kl)/nb) <= m <=
floor(min(m-1, (n+1)*nb+kl-1)/nb) in the General case, the ranges
tightened for Upper (ku only) and Lower (kl only); no tile outside
these ranges is read or written. -/
theorem oocm2ccrb_band_rows (uplo : PlasmaEnum) (A : PlasmaDesc) (tm tn : Nat) :
    (∃ op ∈ plasma_pzoocm2ccrb_band 0 uplo A, op.m = tm ∧ op.n = tn)
      ↔ (tn < nt A ∧ bandMStart uplo A tn ≤ tm ∧ tm ≤ bandMEnd uplo A tn) := by
  unfold plasma_pzoocm2ccrb_band
  rw [if_neg (by omega : ¬ (0 : Int) ≠ 0)]
  constructor
  · rintro ⟨op, hop, hm, hn⟩
    simp only [List.mem_flatMap, List.mem_map, List.mem_range] at hop
    obtain ⟨n2, hn2, t, ht, he⟩ := hop
    have e1 : op.m = bandMStart uplo A n2 + t := by rw [← he]
    have e2 : op.n = n2 := by rw [← he]
    have e3 : n2 = tn := by omega
    subst e3
    exact ⟨hn2, by omega, by omega⟩
  · rintro ⟨h1, h2, h3⟩
    refine ⟨{ m := tm, n := tn
              mb := min A.mb (A.m - tm * A.mb)
              nb := min A.nb (A.n - tn * A.nb)
              ld := BLKLDD_BAND uplo A tm tn }, ?_, rfl, rfl⟩
    simp only [List.mem_flatMap, List.mem_map, List.mem_range]
    refine ⟨tn, h1, tm - bandMStart uplo A tn, by omega, ?_⟩
    have : bandMStart uplo A tn + (tm - bandMStart uplo A tn) = tm := by omega
    rw [this]

/-! ## Sequences, requests and task bodies -/

/-- The PLASMA success status. -/
def PlasmaSuccess : Int := 0

/-- Error code for an operation on an already-failed sequence.  Modelled
from the spec, section 6: the concrete value only needs to be distinct
from success. -/
def PlasmaErrorSequence : Int := -101

/-- Error code for an illegal argument.  Modelled from the spec,
section 6. -/
def PlasmaErrorIllegalValue : Int := -102

/-- The pair of a sequence status and a request status. -/
structure SeqReq where
  seq : Int
  req : Int
  deriving DecidableEq, Repr

/-- Modelled from the spec: plasma_request_fail (its C body is not among
the sources) atomically sets both statuses to the first error observed
(spec sections 3.2 and 4.2), so a sequence that has already left
Success keeps its first error. -/
def plasma_request_fail (s : SeqReq) (e : Int) : SeqReq :=
  if s.seq = PlasmaSuccess then { seq := e, req := e } else s

/-- The body of the task submitted by CORE_OMP_zpotrf, as a function of
the (otherwise opaque) LAPACKE kernel: it tests the sequence status
first; on Success it runs the kernel on the tile (writing the whole
inout region A[0:n*n]) and, if the kernel reports info different from
0, records iinfo + info through plasma_request_fail; on a failed
sequence it does nothing.  Returns the statuses, the tile memory, and
the list of element indices written. -/
def CORE_OMP_zpotrf {α : Type}
    (potrf : PlasmaEnum → Nat → (Nat → α) → Nat → ((Nat → α) × Int))
    (uplo : PlasmaEnum) (n : Nat) (A : Nat → α) (lda : Nat)
    (s : SeqReq) (iinfo : Int) : SeqReq × (Nat → α) × List Nat :=
  if s.seq = PlasmaSuccess then
    let r := potrf uplo n A lda
    if r.2 ≠ 0 then (plasma_request_fail s (iinfo + r.2), r.1, List.range (n * n))
    else (s, r.1, List.range (n * n))
  else (s, A, [])

/-- A task body: from the statuses and a flat memory it produces new
statuses, the new memory, and the list of indices it wrote. -/
def TaskBody (α : Type) : Type :=
  SeqReq → (Nat → α) → SeqReq × (Nat → α) × List Nat

/-- A task body is guarded when, like every PLASMA kernel task, it tests
the sequence status first and does nothing — no status change, no
memory write — once the sequence has left Success. -/
def Guarded {α : Type} (t : TaskBody α) : Prop :=
  ∀ s mem, s.seq ≠ PlasmaSuccess → t s mem = (s, mem, [])

/-- Execute a list of task bodies in dependency order, accumulating the
write log. -/
def runTasks {α : Type} (ts : List (TaskBody α)) (s : SeqReq) (mem : Nat → α) :
    SeqReq × (Nat → α) × List Nat :=
  ts.foldl (fun acc t =>
    let r := t acc.1 acc.2.1
    (r.1, r.2.1, acc.2.2 ++ r.2.2)) (s, mem, [])

theorem runTasks_absorbed {α : Type} (ts : List (TaskBody α))
    (acc : SeqReq × (Nat → α) × List Nat) (hg : ∀ t ∈ ts, Guarded t)
    (h : acc.1.seq ≠ PlasmaSuccess) :
    ts.foldl (fun acc t =>
      let r := t acc.1 acc.2.1
      (r.1, r.2.1, acc.2.2 ++ r.2.2)) acc = acc := by
  induction ts generalizing acc with
  | nil => rfl
  | cons t ts ih =>
    rw [List.foldl_cons]
    have hstep : t acc.1 acc.2.1 = (acc.1, acc.2.1, []) :=
      hg t (List.mem_cons_self _ _) acc.1 acc.2.1 h
    rw [hstep]
    simp only [List.append_nil]
    exact ih acc (fun u hu => hg u (List.mem_cons_of_mem _ hu)) h

/-- C4: sequence failure is absorbing.  If, after running a prefix ts1
of guarded task bodies, the sequence status has left Success, then
running any further guarded tasks ts2 changes nothing: the final
statuses are those reached by ts1 (the first observed error is
retained, and the status never returns to Success), the memory is
untouched and the suffix performs no writes.  Moreover the body
submitted by CORE_OMP_zpotrf is such a guarded task: started on a
failed sequence it performs no memory writes on its inout region. -/
theorem sequence_failure_absorbing {α : Type} (ts1 ts2 : List (TaskBody α))
    (s : SeqReq) (mem : Nat → α) (hg : ∀ t ∈ ts2, Guarded t)
    (hf : (runTasks ts1 s mem).1.seq ≠ PlasmaSuccess) :
    runTasks (ts1 ++ ts2) s mem = runTasks ts1 s mem ∧
    ∀ (potrf : PlasmaEnum → Nat → (Nat → α) → Nat → ((Nat → α) × Int))
      (uplo : PlasmaEnum) (n lda : Nat) (iinfo : Int),
      Guarded (fun s2 mem2 => CORE_OMP_zpotrf potrf uplo n mem2 lda s2 iinfo) := by
  constructor
  · unfold runTasks
    rw [List.foldl_append]
    exact runTasks_absorbed ts2 _ hg hf
  · intro potrf uplo n lda iinfo s2 mem2 hs2
    show CORE_OMP_zpotrf potrf uplo n mem2 lda s2 iinfo = (s2, mem2, [])
    unfold CORE_OMP_zpotrf
    rw [if_neg hs2]

/-- A concrete guarded task used by the witness: a zpotrf task whose
kernel always reports failure info = 3. -/
def failTask : TaskBody Int :=
  fun s mem => CORE_OMP_zpotrf (fun _ _ A _ => (A, 3))
    PlasmaEnum.lower 2 mem 2 s 4

theorem failTask_guarded : Guarded failTask := by
  intro s mem hs
  show CORE_OMP_zpotrf (fun _ _ A _ => (A, 3)) PlasmaEnum.lower 2 mem 2 s 4
    = (s, mem, [])
  unfold CORE_OMP_zpotrf
  rw [if_neg hs]

/-- Witness for sequence_failure_absorbing: after one failing zpotrf
task the status is 7 and a second zpotrf task leaves everything
unchanged. -/
theorem sequence_failure_absorbing_witness :
    runTasks [failTask, failTask] { seq := 0, req := 0 } (fun _ => (0 : Int))
      = runTasks [failTask] { seq := 0, req := 0 } (fun _ => (0 : Int)) ∧
    ∀ (potrf : PlasmaEnum → Nat → (Nat → Int) → Nat → ((Nat → Int) × Int))
      (uplo : PlasmaEnum) (n lda : Nat) (iinfo : Int),
      Guarded (fun s2 mem2 => CORE_OMP_zpotrf potrf uplo n mem2 lda s2 iinfo) :=
  sequence_failure_absorbing [failTask] [failTask] { seq := 0, req := 0 }
    (fun _ => (0 : Int)) (fun t ht => by
      have : t = failTask := by
        simpa using ht
      rw [this]
      exact failTask_guarded)
    (by decide)

/-- C5: info forwarding of the Cholesky diagonal task.  Started on a
successful sequence, CORE_OMP_zpotrf records iinfo + info into both the
sequence status and the request status through plasma_request_fail when
the kernel reports info different from 0, and modifies neither status
when info = 0. -/
theorem core_omp_zpotrf_info_forwarding {α : Type}
    (potrf : PlasmaEnum → Nat → (Nat → α) → Nat → ((Nat → α) × Int))
    (uplo : PlasmaEnum) (n lda : Nat) (A : Nat → α) (s : SeqReq) (iinfo : Int)
    (hs : s.seq = PlasmaSuccess) :
    ((potrf uplo n A lda).2 ≠ 0 →
      (CORE_OMP_zpotrf potrf uplo n A lda s iinfo).1
        = { seq := iinfo + (potrf uplo n A lda).2
            req := iinfo + (potrf uplo n A lda).2 }) ∧
    ((potrf uplo n A lda).2 = 0 →
      (CORE_OMP_zpotrf potrf uplo n A lda s iinfo).1 = s) := by
  constructor
  · intro hinfo
    unfold CORE_OMP_zpotrf
    rw [if_pos hs]
    simp only [if_pos hinfo]
    unfold plasma_request_fail
    rw [if_pos hs]
  · intro hinfo
    unfold CORE_OMP_zpotrf
    rw [if_pos hs]
    simp [hinfo]

/-- Witness for core_omp_zpotrf_info_forwarding: a kernel reporting
info = 3 with iinfo = 4 sets both statuses to 7. -/
theorem core_omp_zpotrf_info_forwarding_witness :
    (((fun (_ : PlasmaEnum) (_ : Nat) (A : Nat → Int) (_ : Nat) => (A, (3 : Int)))
        PlasmaEnum.lower 2 (fun _ => 0) 2).2 ≠ 0 →
      (CORE_OMP_zpotrf (fun _ _ A _ => (A, 3)) PlasmaEnum.lower 2 (fun _ => 0) 2
          { seq := 0, req := 0 } 4).1 = { seq := 7, req := 7 }) ∧
    (((fun (_ : PlasmaEnum) (_ : Nat) (A : Nat → Int) (_ : Nat) => (A, (3 : Int)))
        PlasmaEnum.lower 2 (fun _ => 0) 2).2 = 0 →
      (CORE_OMP_zpotrf (fun _ _ A _ => (A, 3)) PlasmaEnum.lower 2 (fun _ => 0) 2
          { seq := 0, req := 0 } 4).1 = { seq := 0, req := 0 }) :=
  core_omp_zpotrf_info_forwarding (fun _ _ A _ => (A, 3)) PlasmaEnum.lower 2 2
    (fun _ => 0) { seq := 0, req := 0 } 4 rfl

/-! ## PLASMA_ztrmm_Tile_Async: quick return on alpha = 0 -/

/-- The observable outcome of an async entry point: the two statuses,
the list of submitted tasks, and the B buffer. -/
structure AsyncResult (α τ : Type) where
  seq : Int
  req : Int
  tasks : List τ
  bufB : Nat → α

/-- PLASMA_ztrmm_Tile_Async.  The context and NULL-pointer checks of the
C concern the runtime environment and have no counterpart in the
embedding; the remaining argument checks, the sequence-status check,
the quick return and the dispatch to plasma_pztrmm (passed as a
parameter, its file not being among the sources) are modelled in the
source's order.  plasma_desc_check is modelled by Valid (spec 3.1). -/
def PLASMA_ztrmm_Tile_Async {α τ : Type} [Zero α] [DecidableEq α]
    (side uplo transA diag : PlasmaEnum) (alpha : α) (A B : PlasmaDesc)
    (seq req : Int) (bufB : Nat → α)
    (pztrmm : PlasmaEnum → PlasmaEnum → PlasmaEnum → PlasmaEnum → α →
      PlasmaDesc → PlasmaDesc → Int → Int → (Nat → α) → AsyncResult α τ) :
    AsyncResult α τ :=
  let fail := fun e =>
    let s := plasma_request_fail { seq := seq, req := req } e
    ({ seq := s.seq, req := s.req, tasks := [], bufB := bufB } : AsyncResult α τ)
  if seq ≠ PlasmaSuccess then fail PlasmaErrorSequence
  else if ¬ Valid A then fail PlasmaErrorIllegalValue
  else if ¬ Valid B then fail PlasmaErrorIllegalValue
  else if A.nb ≠ A.mb ∨ B.nb ≠ B.mb then fail PlasmaErrorIllegalValue
  else if side ≠ PlasmaEnum.left ∧ side ≠ PlasmaEnum.right then
    fail PlasmaErrorIllegalValue
  else if uplo ≠ PlasmaEnum.upper ∧ uplo ≠ PlasmaEnum.lower then
    fail PlasmaErrorIllegalValue
  else if transA ≠ PlasmaEnum.conjTrans ∧ transA ≠ PlasmaEnum.noTrans ∧
      transA ≠ PlasmaEnum.transp then
    fail PlasmaErrorIllegalValue
  else if diag ≠ PlasmaEnum.unitDiag ∧ diag ≠ PlasmaEnum.nonUnitDiag then
    fail PlasmaErrorIllegalValue
  else if A.m = 0 ∨ A.n = 0 ∨ alpha = 0 ∨ B.m = 0 ∨ B.n = 0 then
    { seq := seq, req := req, tasks := [], bufB := bufB }
  else pztrmm side uplo transA diag alpha A B seq req bufB

/-- C9: with alpha = 0 and valid, non-empty, square-tiled descriptors
and legal mode arguments, PLASMA_ztrmm_Tile_Async takes the quick
return: it submits no task, leaves the sequence and request statuses
untouched, and leaves B untouched (it does not set B to the
mathematical product alpha * op(A) * B = 0), whatever plasma_pztrmm
would have emitted. -/
theorem ztrmm_alpha_zero_quick_return {α τ : Type} [Zero α] [DecidableEq α]
    (side uplo transA diag : PlasmaEnum) (alpha : α) (A B : PlasmaDesc)
    (seq req : Int) (bufB : Nat → α)
    (pztrmm : PlasmaEnum → PlasmaEnum → PlasmaEnum → PlasmaEnum → α →
      PlasmaDesc → PlasmaDesc → Int → Int → (Nat → α) → AsyncResult α τ)
    (hseq : seq = PlasmaSuccess) (hA : Valid A) (hB : Valid B)
    (hsqA : A.nb = A.mb) (hsqB : B.nb = B.mb)
    (hside : side = PlasmaEnum.left ∨ side = PlasmaEnum.right)
    (huplo : uplo = PlasmaEnum.upper ∨ uplo = PlasmaEnum.lower)
    (htrans : transA = PlasmaEnum.conjTrans ∨ transA = PlasmaEnum.noTrans ∨
      transA = PlasmaEnum.transp)
    (hdiag : diag = PlasmaEnum.unitDiag ∨ diag = PlasmaEnum.nonUnitDiag)
    (halpha : alpha = 0)
    (_ham : 0 < A.m) (_han : 0 < A.n) (_hbm : 0 < B.m) (_hbn : 0 < B.n) :
    PLASMA_ztrmm_Tile_Async side uplo transA diag alpha A B seq req bufB pztrmm
      = { seq := seq, req := req, tasks := [], bufB := bufB } := by
  simp only [PLASMA_ztrmm_Tile_Async]
  rw [if_neg (by simp [hseq])]
  rw [if_neg (not_not_intro hA)]
  rw [if_neg (not_not_intro hB)]
  rw [if_neg (by simp [hsqA, hsqB])]
  rw [if_neg (by rcases hside with h | h <;> simp [h])]
  rw [if_neg (by rcases huplo with h | h <;> simp [h])]
  rw [if_neg (by rcases htrans with h | h | h <;> simp [h])]
  rw [if_neg (by rcases hdiag with h | h <;> simp [h])]
  rw [if_pos (Or.inr (Or.inr (Or.inl halpha)))]

/-- Witness for ztrmm_alpha_zero_quick_return at a concrete instance:
Left/Lower/NoTrans/NonUnit, alpha = 0 over Int, with a pztrmm stub that
would corrupt everything if it were called. -/
theorem ztrmm_alpha_zero_quick_return_witness :
    PLASMA_ztrmm_Tile_Async (τ := Unit) PlasmaEnum.left PlasmaEnum.lower
        PlasmaEnum.noTrans PlasmaEnum.nonUnitDiag (0 : Int) (descG 4) (descG 4)
        0 0 (fun _ => 5)
        (fun _ _ _ _ _ _ _ _ _ _ =>
          { seq := 9, req := 9, tasks := [()], bufB := fun _ => 7 })
      = { seq := 0, req := 0, tasks := [], bufB := fun _ => 5 } :=
  ztrmm_alpha_zero_quick_return PlasmaEnum.left PlasmaEnum.lower
    PlasmaEnum.noTrans PlasmaEnum.nonUnitDiag 0 (descG 4) (descG 4) 0 0
    (fun _ => 5) _ rfl ⟨by decide, by decide, by decide, by decide⟩
    ⟨by decide, by decide, by decide, by decide⟩ rfl rfl
    (Or.inl rfl) (Or.inr rfl) (Or.inr (Or.inl rfl)) (Or.inr rfl) rfl
    (by decide) (by decide) (by decide) (by decide)

/-! ## core_omp_zsyssq_aux: the sum-of-squares reduction -/

/-- The scaled sum-of-squares combining rule of core_omp_zsyssq_aux: the
accumulator (scl, sum) absorbs a contribution (a, sq) by
sum := sq + sum*(scl/a)^2, scl := a when scl < a, and
sum := sum + sq*(a/scl)^2 otherwise. -/
def ssqCombine (acc v : ℚ × ℚ) : ℚ × ℚ :=
  if acc.1 < v.1 then (v.1, v.2 + acc.2 * ((acc.1 / v.1) * (acc.1 / v.1)))
  else (acc.1, acc.2 + v.2 * ((v.1 / acc.1) * (v.1 / acc.1)))

/-- The flat indices idx = m*j + i with j < n, j < i < n visited by the
off-diagonal double loop of core_omp_zsyssq_aux, in program order. -/
def syssqOffIdx (m n : Nat) : List Nat :=
  (List.range n).flatMap fun j =>
    (List.range (n - (j + 1))).map fun t => m * j + (j + 1 + t)

/-- The diagonal indices idx = m*j + j, j < n, of core_omp_zsyssq_aux. -/
def syssqDiagIdx (m n : Nat) : List Nat :=
  (List.range n).map fun j => m * j + j

/-- core_omp_zsyssq_aux: starting from (scl, sum) = (0, 1), fold the
strict lower (off-diagonal) entries of the n by n grid of per-tile
(scale, sumsq) pairs with the combining rule, double the accumulated
sum, then fold the diagonal entries; the kernel's output is
value = scl * sqrt(sum) over the resulting pair. -/
def core_omp_zsyssq_aux (m n : Nat) (scale sumsq : Nat → ℚ) : ℚ × ℚ :=
  let p := (syssqOffIdx m n).foldl
    (fun acc idx => ssqCombine acc (scale idx, sumsq idx)) (0, 1)
  (syssqDiagIdx m n).foldl
    (fun acc idx => ssqCombine acc (scale idx, sumsq idx)) (p.1, 2 * p.2)

theorem ssqCombine_spec (p v : ℚ × ℚ) (hp1 : 0 ≤ p.1) (hp2 : 0 ≤ p.2)
    (hv1 : 0 ≤ v.1) (hv2 : 0 ≤ v.2) :
    0 ≤ (ssqCombine p v).1 ∧ 0 ≤ (ssqCombine p v).2 ∧
    (ssqCombine p v).1 ^ 2 * (ssqCombine p v).2
      = p.1 ^ 2 * p.2 + v.1 ^ 2 * v.2 := by
  unfold ssqCombine
  by_cases h : p.1 < v.1
  · rw [if_pos h]
    have hv1pos : 0 < v.1 := lt_of_le_of_lt hp1 h
    refine ⟨le_of_lt hv1pos, by positivity, ?_⟩
    field_simp
    ring
  · rw [if_neg h]
    push_neg at h
    by_cases hz : p.1 = 0
    · have hv0 : v.1 = 0 := le_antisymm (hz ▸ h) hv1
      rw [hz, hv0]
      norm_num
      exact hp2
    · refine ⟨hp1, by positivity, ?_⟩
      field_simp
      ring

theorem foldl_ssqCombine_spec (L : List (ℚ × ℚ))
    (hL : ∀ v ∈ L, 0 ≤ v.1 ∧ 0 ≤ v.2) (p : ℚ × ℚ)
    (hp1 : 0 ≤ p.1) (hp2 : 0 ≤ p.2) :
    0 ≤ (L.foldl ssqCombine p).1 ∧ 0 ≤ (L.foldl ssqCombine p).2 ∧
    (L.foldl ssqCombine p).1 ^ 2 * (L.foldl ssqCombine p).2
      = p.1 ^ 2 * p.2 + (L.map (fun v => v.1 ^ 2 * v.2)).sum := by
  induction L generalizing p with
  | nil => simp [hp1, hp2]
  | cons v T ih =>
    rw [List.foldl_cons, List.map_cons, List.sum_cons]
    obtain ⟨h1, h2, h3⟩ := ssqCombine_spec p v hp1 hp2
      (hL v (List.mem_cons_self _ _)).1 (hL v (List.mem_cons_self _ _)).2
    obtain ⟨g1, g2, g3⟩ := ih (fun u hu => hL u (List.mem_cons_of_mem _ hu))
      (ssqCombine p v) h1 h2
    exact ⟨g1, g2, by rw [g3, h3]; ring⟩

/-- C8: the symmetric-norm reduction is the stated scaled combine rule
with off-diagonal weight 2 and diagonal weight 1.  For nonnegative
per-tile scales and sum-of-squares, the final kernel output
value = scl * sqrt(sum) over the (scl, sum) pair computed by
core_omp_zsyssq_aux equals the square root of
2 * sum of scale^2*sumsq over the off-diagonal grid entries plus
1 * the same sum over the diagonal entries. -/
theorem core_omp_zsyssq_aux_value (m n : Nat) (scale sumsq : Nat → ℚ)
    (hsc : ∀ k, 0 ≤ scale k) (hsq : ∀ k, 0 ≤ sumsq k) :
    ((core_omp_zsyssq_aux m n scale sumsq).1 : ℝ)
        * Real.sqrt ((core_omp_zsyssq_aux m n scale sumsq).2 : ℝ)
      = Real.sqrt
          ((2 * ((syssqOffIdx m n).map (fun k => scale k ^ 2 * sumsq k)).sum
            + ((syssqDiagIdx m n).map (fun k => scale k ^ 2 * sumsq k)).sum
            : ℚ) : ℝ) := by
  have hmap : ∀ (l : List Nat) (q : ℚ × ℚ),
      l.foldl (fun acc idx => ssqCombine acc (scale idx, sumsq idx)) q
        = (l.map (fun idx => (scale idx, sumsq idx))).foldl ssqCombine q := by
    intro l q
    rw [List.foldl_map]
  have hnn : ∀ (l : List Nat), ∀ v ∈ l.map (fun idx => (scale idx, sumsq idx)),
      0 ≤ v.1 ∧ 0 ≤ v.2 := by
    intro l v hv
    simp only [List.mem_map] at hv
    obtain ⟨k, hk, he⟩ := hv
    rw [← he]
    exact ⟨hsc k, hsq k⟩
  have hsum : ∀ (l : List Nat),
      ((l.map (fun idx => (scale idx, sumsq idx))).map
        (fun v => v.1 ^ 2 * v.2)).sum
      = (l.map (fun k => scale k ^ 2 * sumsq k)).sum := by
    intro l
    rw [List.map_map]
    rfl
  obtain ⟨p1, p2, p3⟩ := foldl_ssqCombine_spec
    ((syssqOffIdx m n).map (fun idx => (scale idx, sumsq idx)))
    (hnn _) (0, 1) (le_refl 0) (by norm_num)
  set poff := ((syssqOffIdx m n).map
    (fun idx => (scale idx, sumsq idx))).foldl ssqCombine (0, 1) with hpoff
  obtain ⟨q1, q2, q3⟩ := foldl_ssqCombine_spec
    ((syssqDiagIdx m n).map (fun idx => (scale idx, sumsq idx)))
    (hnn _) (poff.1, 2 * poff.2) p1 (by positivity)
  set rfin := ((syssqDiagIdx m n).map
    (fun idx => (scale idx, sumsq idx))).foldl ssqCombine (poff.1, 2 * poff.2)
    with hrfin
  have hr : core_omp_zsyssq_aux m n scale sumsq = rfin := by
    unfold core_omp_zsyssq_aux
    rw [hmap, hmap, ← hpoff, hrfin]
  rw [hr]
  have hval : rfin.1 ^ 2 * rfin.2
      = 2 * ((syssqOffIdx m n).map (fun k => scale k ^ 2 * sumsq k)).sum
        + ((syssqDiagIdx m n).map (fun k => scale k ^ 2 * sumsq k)).sum := by
    rw [q3, hsum]
    dsimp only at p3 ⊢
    rw [hsum] at p3
    have h2 : poff.1 ^ 2 * (2 * poff.2) = 2 * (poff.1 ^ 2 * poff.2) := by ring
    rw [h2, p3]
    ring
  rw [← hval]
  push_cast
  rw [Real.sqrt_mul (by positivity) ((rfin.2 : ℝ))]
  rw [Real.sqrt_sq (by exact_mod_cast q1)]

/-- Witness for core_omp_zsyssq_aux_value: the 2 by 2 grid with all
scales and sums equal to 1; value is 1 * sqrt(4) = sqrt(2*1 + 2). -/
theorem core_omp_zsyssq_aux_value_witness :
    ((core_omp_zsyssq_aux 2 2 (fun _ => 1) (fun _ => 1)).1 : ℝ)
        * Real.sqrt ((core_omp_zsyssq_aux 2 2 (fun _ => 1) (fun _ => 1)).2 : ℝ)
      = Real.sqrt
          ((2 * ((syssqOffIdx 2 2).map
              (fun k => (fun _ => (1 : ℚ)) k ^ 2 * (fun _ => (1 : ℚ)) k)).sum
            + ((syssqDiagIdx 2 2).map
              (fun k => (fun _ => (1 : ℚ)) k ^ 2 * (fun _ => (1 : ℚ)) k)).sum
            : ℚ) : ℝ) :=
  core_omp_zsyssq_aux_value 2 2 (fun _ => 1) (fun _ => 1)
    (fun _ => by norm_num) (fun _ => by norm_num)

/-! ## core_omp_clag2z: the async conversion wrapper -/

/-- Write one 4-byte-pair slot of a bounded buffer; out-of-bounds stores
have no defined behaviour in the C and yield none. -/
def writeSlot (b : List Nat) (k v : Nat) : Option (List Nat) :=
  if k < b.length then some (b.set k v) else none

/-- Modelled from the spec: the single-tile conversion kernels are
opaque external LAPACK bindings (spec section 1, out of scope), so the
bit-level float conversions are parameters.  Buffers are lists of
8-byte slots: one slot per single-complex element, two per
double-complex element.  core_clag2z converts the m by n single-complex
As (leading dimension ldas) into the double-complex A (leading
dimension lda): per element it reads one slot of As, widens it, and
writes two slots of A. -/
def core_clag2z (m n : Nat) (As : List Nat) (ldas : Nat)
    (A : List Nat) (lda : Nat) (widen : Nat → Nat × Nat) :
    Option (List Nat) :=
  (List.range n).foldlM (fun acc j =>
    (List.range m).foldlM (fun acc2 i => do
      let w ← As[i + j * ldas]?
      let p := widen w
      let a1 ← writeSlot acc2 (2 * (i + j * lda)) p.1
      writeSlot a1 (2 * (i + j * lda) + 1) p.2) acc) A

/-- Modelled from the spec: core_zlag2c, the opposite conversion kernel
(double-complex to single-complex, LAPACK zlag2c): per element it reads
the two slots of the double-complex A and writes one slot of the
single-complex As. -/
def core_zlag2c (m n : Nat) (A : List Nat) (lda : Nat)
    (As : List Nat) (ldas : Nat) (narrow : Nat × Nat → Nat) :
    Option (List Nat) :=
  (List.range n).foldlM (fun acc j =>
    (List.range m).foldlM (fun acc2 i => do
      let w1 ← A[2 * (i + j * lda)]?
      let w2 ← A[2 * (i + j * lda) + 1]?
      writeSlot acc2 (i + j * ldas) (narrow (w1, w2))) acc) As

/-- The task body the source submits in core_omp_clag2z: it calls
core_zlag2c(m, n, As, ldas, A, lda, ...), handing the single-complex
buffer As to the double-complex parameter of the narrowing kernel and
the double-complex buffer A to its single-complex output parameter. -/
def core_omp_clag2z (m n : Nat) (As : List Nat) (ldas : Nat)
    (A : List Nat) (lda : Nat) (narrow : Nat × Nat → Nat) :
    Option (List Nat) :=
  core_zlag2c m n As ldas A lda narrow

/-- C10: the task body of core_omp_clag2z does not refine core_clag2z.
On the 1 by 1 input with ldas = lda = 1, for every widening and
narrowing conversion, the submitted body reads the single-complex
buffer As = [7] at double-complex stride — slot 1, past its
allocation — and fails, while the direct call core_clag2z converts the
element and fills both slots of A. -/
theorem clag2z_wrapper_not_refining :
    ∀ (widen : Nat → Nat × Nat) (narrow : Nat × Nat → Nat),
      core_omp_clag2z 1 1 [7] 1 [5, 5] 1 narrow = none ∧
      core_clag2z 1 1 [7] 1 [5, 5] 1 widen
        = some [(widen 7).1, (widen 7).2] := by
  intro widen narrow
  constructor
  · rfl
  · rfl

/-- Witness for clag2z_wrapper_not_refining at concrete conversions. -/
theorem clag2z_wrapper_not_refining_witness :
    core_omp_clag2z 1 1 [7] 1 [5, 5] 1 (fun p => p.1) = none ∧
    core_clag2z 1 1 [7] 1 [5, 5] 1 (fun w => (w, 0)) = some [7, 0] :=
  clag2z_wrapper_not_refining (fun w => (w, 0)) (fun p => p.1)

end Plasma
